import Mathlib

/-!
Verification of the out-of-core multidimensional histogram binning engine of
the mpes repository (src/mpes/fprocessing.py, src/mpes/base.py,
src/mpes/utils.py), shallowly embedded in Lean.

Modelling conventions:
* Columnar event data and axis ranges become lists of rationals: an exact
  arithmetic model of the floating-point source, so "equal within floating
  summation tolerance" becomes exact equality.
* Calls into numpy are embedded by the documented semantics of the called
  function at the call site (np.histogramdd with uniform bins, np.linspace,
  np.stack/sum, slicing, np.moveaxis/np.rollaxis).
* The stateful processor classes become explicit state passing: mutation of
  an instance attribute is modelled as a field update on the state value.
* The module mpes.utils (imported as u) defines exactly five functions;
  attribute lookups of other names on it raise AttributeError.  Control-flow
  claims about this are settled with a small trace model whose events are
  listed in source order.
-/

namespace Mpes

/-- One axis of a binning specification: the declared range [lo, hi] and the
bin count.  Embeds one entry of the (axes, nbins, ranges) triple as consumed
by np.histogramdd in hdf5Processor.localBinning (fprocessing.py line 909) and
in binPartition (line 998). -/
structure AxisSpec where
  lo : ℚ
  hi : ℚ
  nbins : ℕ
deriving DecidableEq

/-- Bin placement of np.histogramdd on one axis with nbins uniform bins over
[lo, hi]: a value v with lo ≤ v ≤ hi falls into bin floor((v-lo)·nbins/(hi-lo)),
except that the rightmost bin is closed (v = hi lands in bin nbins-1); values
outside [lo, hi] are excluded (returned as none), not clipped. -/
def binIndex (a : AxisSpec) (v : ℚ) : Option ℕ :=
  if a.lo ≤ v ∧ v ≤ a.hi then
    some (min (⌊(v - a.lo) * a.nbins / (a.hi - a.lo)⌋).toNat (a.nbins - 1))
  else none

/-- Multidimensional bin placement of one event row (one value per axis), as
np.histogramdd does for one sample: the event is counted only when every
coordinate falls inside its axis range.  Extra trailing coordinates beyond the
axes list are ignored (the source selects exactly the axis columns). -/
def binEvent : List AxisSpec → List ℚ → Option (List ℕ)
  | [], _ => some []
  | _ :: _, [] => some []
  | a :: as, v :: r =>
    match binIndex a v, binEvent as r with
    | some i, some t => some (i :: t)
    | _, _ => none

/-- Count of the events of a row block that np.histogramdd places into the
multi-index idx.  A histogram value H[idx] is this count. -/
def histCount (axes : List AxisSpec) (rows : List (List ℚ)) (idx : List ℕ) : ℕ :=
  rows.countP (fun r => decide (binEvent axes r = some idx))

/-- Histogram entry computed by hdf5Processor.localBinning (fprocessing.py
line 909): one single np.histogramdd call over the fully loaded event block. -/
def localBinning (axes : List AxisSpec) (rows : List (List ℚ)) (idx : List ℕ) : ℕ :=
  histCount axes rows idx

/-- All multi-indices of the histogram grid, one component per axis, the
component for an axis ranging over its nbins bins. -/
def allIndices : List AxisSpec → List (List ℕ)
  | [] => [[]]
  | a :: as => ((List.range a.nbins).map (fun i => (allIndices as).map (fun t => i :: t))).flatten

/-- Sum of all counts of the histogram over the whole bin grid. -/
def sumHist (axes : List AxisSpec) (rows : List (List ℚ)) : ℕ :=
  ((allIndices axes).map (fun idx => histCount axes rows idx)).sum

/-- Contiguous chunk number p of size c of a list, the partition layout that
hdf5Reader.summarize(form='dataframe') gives the event dataframe
(fprocessing.py lines 533-541): partition p holds events [p·c, min((p+1)·c, N)). -/
def chunkOf (xs : List α) (c p : ℕ) : List α :=
  (xs.drop (p * c)).take c

/-- Number of dataframe partitions, from fprocessing.py line 528:
nPartitions = int(nEvents // chunkSize) + 1. -/
def nPartitions (n c : ℕ) : ℕ := n / c + 1

/-- binPartition (fprocessing.py lines 976-1000): np.histogramdd over the
rows of one dataframe partition, with the given axes, bins and ranges. -/
def binPartition (axes : List AxisSpec) (part : List (List ℚ)) (idx : List ℕ) : ℕ :=
  histCount axes part idx

/-- Python range(0, stop, step) for a positive step, the batch starts of the
outer loop of binDataframe (fprocessing.py line 1029). -/
def pyRangeStep (stop step : ℕ) : List ℕ :=
  (List.range ((stop + step - 1) / step)).map (fun k => k * step)

/-- One batch of the binDataframe double loop (fprocessing.py lines 1031-1049):
from batch start i the inner loop takes partitions i, i+1, ... and breaks at
min(ncores, nPartitions - i) of them; their per-partition histograms are added
into one batch total (partitionResult). -/
def batchResult (g : ℕ → ℕ) (nP nc i : ℕ) : ℕ :=
  ((List.range (min nc (nP - i))).map (fun j => g (i + j))).sum

/-- Histogram entry computed by binDataframe (fprocessing.py lines 1003-1066),
the engine of hdf5Processor.distributedBinning: the event list is cut into
nPartitions chunks of size c, batches of nc chunks are binned and their
histograms summed, and the batch totals are summed into the full result.
np.nan_to_num and the astype('float32') cast are identities in the exact
arithmetic model of natural-number counts. -/
def binDataframe (axes : List AxisSpec) (rows : List (List ℚ)) (c nc : ℕ)
    (idx : List ℕ) : ℕ :=
  ((pyRangeStep (nPartitions rows.length c) nc).map
    (batchResult (fun p => binPartition axes (chunkOf rows c p) idx)
      (nPartitions rows.length c) nc)).sum

/-- The bin edges np.histogramdd returns for one axis: nbins+1 evenly spaced
values from lo to hi.  localBinning stores these when histcoord='edge'
(fprocessing.py lines 917-918). -/
def histEdges (a : AxisSpec) : List ℚ :=
  (List.range (a.nbins + 1)).map (fun (i : ℕ) => a.lo + (i : ℚ) * (a.hi - a.lo) / a.nbins)

/-- Midpoint coordinates localBinning stores when histcoord='midpoint'
(fprocessing.py lines 913-916): elementwise (edge[1:] + edge[:-1]) / 2. -/
def midpoints (edges : List ℚ) : List ℚ :=
  ((edges.drop 1).zip edges).map (fun p => (p.1 + p.2) / 2)

/-- np.linspace(lo, hi, n): n evenly spaced values from lo to hi inclusive
(for n = 1 just [lo]; rational division by zero is zero, matching that case). -/
def npLinspace (lo hi : ℚ) (n : ℕ) : List ℚ :=
  (List.range n).map (fun (i : ℕ) => lo + (i : ℚ) * (hi - lo) / ((n : ℚ) - 1))

/-- Axis coordinate array computed analytically by binDataframe
(fprocessing.py lines 1062-1064): np.linspace(range[0], range[1], nbins). -/
def binDataframeAxis (r : ℚ × ℚ) (nb : ℕ) : List ℚ :=
  npLinspace r.1 r.2 nb

/-- Histogram bar size used for jittering (fprocessing.py line 898):
binsize = abs(range[0] - range[1]) / nbins. -/
def binsize (a : AxisSpec) : ℚ :=
  |a.lo - a.hi| / a.nbins

/-- Jitter applied to one data column (fprocessing.py lines 899-902): each
event value gains amp · binsize · noise, where noise is the per-event draw of
np.random.uniform(low=-1, high=1).  The draws are abstracted as an arbitrary
function of the event index; the astype('float32') cast is an identity here
because the column was already loaded as float32 (line 441). -/
def jitterColumn (a : AxisSpec) (amp : ℚ) (noise : ℕ → ℚ) (col : List ℚ) : List ℚ :=
  ((List.range col.length).zip col).map (fun p => p.2 + amp * binsize a * noise p.1)

/-- Per-axis jittering of the whole column dictionary, as the zip loop of
fprocessing.py lines 894-902 with jitter_axes = axes, jitter_bins = nbins and
jitter_ranges = ranges (their defaults). -/
def jitterColumns (axes : List AxisSpec) (amps : List ℚ) (noises : List (ℕ → ℚ))
    (cols : List (List ℚ)) : List (List ℚ) :=
  (((axes.zip amps).zip noises).zip cols).map
    (fun q => jitterColumn q.1.1.1 q.1.1.2 q.1.2 q.2)

/-- np.stack(columns, axis=1) (fprocessing.py line 905): event row j collects
the j-th entry of every column. -/
def stackRows (cols : List (List ℚ)) (n : ℕ) : List (List ℚ) :=
  (List.range n).map (fun j => cols.map (fun col => col.getD j 0))

/-- localBinning with jittered=True (fprocessing.py lines 884-909): jitter the
columns, stack them, then one np.histogramdd call. -/
def localBinningJittered (axes : List AxisSpec) (amps : List ℚ)
    (noises : List (ℕ → ℚ)) (cols : List (List ℚ)) (n : ℕ) (idx : List ℕ) : ℕ :=
  localBinning axes (stackRows (jitterColumns axes amps noises cols) n) idx

/-- One named hdf5 data group: its dataset and its own attributes. -/
structure H5Group where
  data : List ℚ
  gattrs : List (String × ℚ)
deriving DecidableEq

/-- An hdf5 file as hdf5Splitter sees it: file attributes and named groups. -/
structure H5File where
  attrs : List (String × ℚ)
  groups : List (String × H5Group)
deriving DecidableEq

/-- Split boundaries of hdf5Splitter.split (fprocessing.py line 1125):
np.linspace(0, eventLen, nsplit+1, dtype='int'), i.e. the integer truncations
of i·L/n for i = 0..n, modelled in exact arithmetic. -/
def eventList (L n : ℕ) : List ℕ :=
  (List.range (n + 1)).map (fun i => i * L / n)

/-- Python slice xs[a:b] for 0 ≤ a ≤ b. -/
def pySlice (xs : List ℚ) (a b : ℕ) : List ℚ :=
  (xs.drop a).take (b - a)

/-- hdf5Splitter._split_file (fprocessing.py lines 1080-1102) for one boundary
pair: the new file carries every file attribute verbatim, and every group
sliced to [evmin, evmax) with its group attributes copied verbatim. -/
def splitFileAt (f : H5File) (evmin evmax : ℕ) : H5File :=
  { attrs := f.attrs,
    groups := f.groups.map
      (fun g => (g.1, { data := pySlice g.2.data evmin evmax, gattrs := g.2.gattrs })) }

/-- hdf5Splitter.split (fprocessing.py lines 1104-1137): n split files, file
idx covering [eventList[idx], eventList[idx+1]).  L is the size of the
reference group split_group. -/
def split (f : H5File) (L n : ℕ) : List H5File :=
  (List.range n).map
    (fun i => splitFileAt f ((eventList L n).getD i 0) ((eventList L n).getD (i + 1) 0))

/-- The nbins argument of the binning entry points: a single int broadcast to
all axes or one int per axis (fprocessing.py lines 713-717). -/
inductive NbinsArg where
  | scalar (k : ℤ)
  | listArg (ks : List ℤ)
deriving DecidableEq

/-- Binning parameters an hdf5Processor instance stores. -/
structure BinnerState where
  binaxes : List String
  nbinaxes : ℕ
  bincounts : NbinsArg
  binranges : List (ℚ × ℚ)
deriving DecidableEq

/-- hdf5Processor._addBinners (fprocessing.py lines 694-719) with binDict=None:
it stores the axes, their number, the bin counts (int(nbins) for a scalar,
list(map(int, nbins)) otherwise) and the ranges.  The source performs no
check of any kind: no length comparison, no range check, no positivity check,
so the result is always ok. -/
def addBinners (axes : List String) (nbins : NbinsArg) (ranges : List (ℚ × ℚ)) :
    Except String BinnerState :=
  .ok { binaxes := axes, nbinaxes := axes.length, bincounts := nbins, binranges := ranges }

/-- A dense n-dimensional rational array: shape plus entries addressed by
multi-index. -/
structure NDArray where
  shape : List ℕ
  entry : List ℕ → ℚ

/-- A binning result dictionary (self.histdict): the binned array under the
key 'binned' plus one coordinate array per axis name. -/
structure Hist where
  binned : NDArray
  axesVals : List (String × List ℚ)

/-- Slicing an n-dimensional array to [a, b) along axis seq, the effect of
np.moveaxis(arr, seq, 0)[a:b, ...] followed by np.moveaxis(, 0, seq)
(fprocessing.py lines 945-946): the extent along seq becomes min(b, len) - a
and every index along seq is shifted by a; all other axes are untouched. -/
def sliceAxisArr (A : NDArray) (seq a b : ℕ) : NDArray :=
  { shape := A.shape.set seq (min b (A.shape.getD seq 0) - a),
    entry := fun idx => A.entry (idx.set seq (idx.getD seq 0 + a)) }

/-- One step of hdf5Processor.updateHistogram (fprocessing.py lines 939-946)
for one axis and one slice range: the coordinate array stored under the axis
name is sliced to [r0, r1) and the binned array is sliced along the position
seq of that axis in binaxes (np.where(ax == binaxes)[0][0], modelled as the
first index of ax). -/
def updateHistogram1 (binaxes : List String) (h : Hist) (ax : String) (r0 r1 : ℕ) : Hist :=
  { binned := sliceAxisArr h.binned (binaxes.indexOf ax) r0 r1,
    axesVals := h.axesVals.map
      (fun p => if p.1 = ax then (p.1, pySlice p.2 r0 r1) else p) }

/-- hdf5Processor.updateHistogram (fprocessing.py lines 930-949): the loop
over zip(seqs, axes, sliceranges). -/
def updateHistogram (binaxes : List String) (h : Hist) (axs : List String)
    (rgs : List (ℕ × ℕ)) : Hist :=
  (axs.zip rgs).foldl (fun acc p => updateHistogram1 binaxes acc p.1 p.2.1 p.2.2) h

/-- The mutable state of an hdf5Processor that updateHistogram touches: the
binning axes and the stored result dictionary self.histdict. -/
structure ProcState where
  binaxes : List String
  histdict : Hist

/-- A call of hdf5Processor.updateHistogram including its effect on the
instance: self.histdict is overwritten with the narrowed dictionary, and the
call returns it only when ret=True (the default is ret=False, returning
None, modelled as none). -/
def updateHistogramCall (s : ProcState) (axs : List String) (rgs : List (ℕ × ℕ))
    (retflag : Bool) : ProcState × Option Hist :=
  let s2 : ProcState := { s with histdict := updateHistogram s.binaxes s.histdict axs rgs }
  (s2, if retflag then some s2.histdict else none)

/-- np.stack(arrays, axis=0).sum(axis=0): defined only when the list is
nonempty and all shapes agree (np.stack raises ValueError otherwise, modelled
as none); the result is the elementwise sum. -/
def npStackSum (arrs : List NDArray) : Option NDArray :=
  match arrs with
  | [] => none
  | a :: rest =>
    if rest.all (fun b => b.shape == a.shape) then
      some { shape := a.shape, entry := fun idx => ((a :: rest).map (fun b => b.entry idx)).sum }
    else none

/-- The state of a parallelHDF5Processor that combineResults touches: the
per-file results self.results and self.combinedresult (none models the empty
dictionary it is initialised to). -/
structure ParallelState where
  results : List Hist
  combinedresult : Option Hist

/-- parallelHDF5Processor.combineResults (fprocessing.py lines 1265-1290):
the try block stacks the per-file binned arrays and sums them along axis 0,
storing results[0] with the summed array as the combined result; ANY failure
inside the try block - in particular the ValueError np.stack raises on
mismatched shapes - is swallowed by the bare except: pass, after which the
method silently returns the (unchanged, initially empty) combinedresult. -/
def combineResults (s : ParallelState) : ParallelState × Option Hist :=
  match npStackSum (s.results.map (fun r => r.binned)), s.results with
  | some summed, r0 :: _ =>
    let s2 : ParallelState := { s with combinedresult := some { r0 with binned := summed } }
    (s2, s2.combinedresult)
  | _, _ => (s, s.combinedresult)

/-- One dataset written to the hdf5 output: a binned array or a coordinate
array. -/
inductive H5Entry where
  | arr (A : NDArray)
  | coords (xs : List ℚ)

/-- The 3-dimensional slice number i of an array along the cut axis:
np.rollaxis(arr, cutaxis)[i, ...] (fprocessing.py lines 629-632). -/
def cutSlice (A : NDArray) (cutaxis i : ℕ) : NDArray :=
  { shape := A.shape.eraseIdx cutaxis,
    entry := fun idx => A.entry (idx.insertIdx cutaxis i) }

/-- The hdf5 branch of saveDict (fprocessing.py lines 617-642): for fewer
than 4 binning axes one dataset binned/<slicename> holding the whole array;
for exactly 4, one 3-dimensional dataset binned/<slicename><i> per index i
along the cut axis; for more than 4 a NotImplementedError; in the non-error
cases one dataset axes/<name> per binning axis.  The returned list carries
the dataset names and contents in creation order. -/
def saveDictH5 (nbinaxes : ℕ) (binnedArr : NDArray) (binaxes : List String)
    (axesVals : String → List ℚ) (sln : String) (cutaxis : ℕ) :
    Except String (List (String × H5Entry)) :=
  if nbinaxes < 4 then
    .ok (("binned/" ++ sln, .arr binnedArr) ::
      binaxes.map (fun k => ("axes/" ++ k, .coords (axesVals k))))
  else if nbinaxes = 4 then
    .ok ((List.range (binnedArr.shape.getD cutaxis 0)).map
        (fun i => ("binned/" ++ sln ++ toString i, .arr (cutSlice binnedArr cutaxis i)))
      ++ binaxes.map (fun k => ("axes/" ++ k, .coords (axesVals k))))
  else
    .error "The output format is undefined for data with higher than four dimensions!"

/-- The functions src/mpes/utils.py actually defines (its complete list of
top-level definitions). -/
def utilsDefinedNames : List String :=
  ["numFormatConversion", "to_odd", "revaxis", "replist", "shuffleaxis"]

/-- Events of the straight-line traces of the binning entry points that
matter for error ordering: an attribute lookup on the utils module, a read of
source data, the _addBinners call, the histogram computation, and the
return. -/
inductive PyEvent where
  | lookupUtils (n : String)
  | readData
  | addBinnersEv
  | bin
  | ret
deriving DecidableEq

/-- Runs a straight-line trace: a lookup of a name the utils module does not
define raises AttributeError, stopping execution there; every other event
simply executes.  Returns the executed events and the failing name, if any. -/
def runSeq : List PyEvent → List PyEvent × Option String
  | [] => ([], none)
  | .lookupUtils n :: rest =>
    if n ∈ utilsDefinedNames then
      ((PyEvent.lookupUtils n) :: (runSeq rest).1, (runSeq rest).2)
    else ([], some n)
  | e :: rest => (e :: (runSeq rest).1, (runSeq rest).2)

/-- Event trace of hdf5Processor.localBinning (fprocessing.py lines 831-928)
in source order: u.intify (line 876), summarize(form='dict') loading the
streams (line 879), _addBinners (line 882), np.histogramdd (line 909),
return (line 921). -/
def localBinningSeq : List PyEvent :=
  [.lookupUtils "intify", .readData, .addBinnersEv, .bin, .ret]

/-- Event trace of hdf5Processor.distributedBinning (fprocessing.py lines
803-829) in source order: u.intify (line 818), _addBinners (line 821),
summarize(form='dataframe') (line 822), binDataframe (line 825), return
(line 829). -/
def distributedBinningSeq : List PyEvent :=
  [.lookupUtils "intify", .addBinnersEv, .readData, .bin, .ret]

/-- Event trace of parallelHDF5Processor.parallelBinning with combine=True
(fprocessing.py lines 1226-1248) in source order: u.dictmerge (line 1227),
then the computed localBinning tasks (which would hit u.intify, read the
files and bin, lines 1229-1238), u.calcax (line 1245), return (line 1248). -/
def parallelBinningCombineSeq : List PyEvent :=
  [.lookupUtils "dictmerge", .lookupUtils "intify", .readData, .bin,
    .lookupUtils "calcax", .ret]

theorem binIndex_lt (a : AxisSpec) (v : ℚ) (i : ℕ) (hb : 0 < a.nbins)
    (h : binIndex a v = some i) : i < a.nbins := by
  unfold binIndex at h
  split at h
  · simp only [Option.some.injEq] at h
    omega
  · exact absurd h (by simp)

theorem binIndex_isSome_iff (a : AxisSpec) (v : ℚ) :
    (binIndex a v).isSome = true ↔ (a.lo ≤ v ∧ v ≤ a.hi) := by
  unfold binIndex
  split <;> simp_all

theorem binEvent_cons (a : AxisSpec) (as : List AxisSpec) (v : ℚ) (rt : List ℚ) :
    binEvent (a :: as) (v :: rt) =
      match binIndex a v, binEvent as rt with
      | some i, some t => some (i :: t)
      | _, _ => none := rfl

theorem binEvent_isSome_iff (axes : List AxisSpec) (r : List ℚ)
    (hr : axes.length ≤ r.length) :
    (binEvent axes r).isSome = true ↔
      ∀ p ∈ axes.zip r, p.1.lo ≤ p.2 ∧ p.2 ≤ p.1.hi := by
  induction axes generalizing r with
  | nil => simp [binEvent]
  | cons a as ih =>
    cases r with
    | nil => simp at hr
    | cons v rt =>
      have hr2 : as.length ≤ rt.length := by simpa using hr
      constructor
      · intro h p hp
        rcases List.mem_cons.1 (by simpa [List.zip_cons_cons] using hp) with h1 | h2
        · subst h1
          cases hbv : binIndex a v with
          | none => rw [binEvent_cons, hbv] at h; simp at h
          | some i => exact (binIndex_isSome_iff a v).1 (by simp [hbv])
        · cases hE : binEvent as rt with
          | none =>
            rw [binEvent_cons, hE] at h
            cases hbv : binIndex a v <;> rw [hbv] at h <;> simp at h
          | some t => exact ((ih rt hr2).1 (by simp [hE])) p h2
      · intro h
        have h1 : (binIndex a v).isSome = true :=
          (binIndex_isSome_iff a v).2 (h (a, v) (by simp [List.zip_cons_cons]))
        have h2 : (binEvent as rt).isSome = true :=
          (ih rt hr2).2 (fun p hp => h p (by simp [List.zip_cons_cons, hp]))
        rcases Option.isSome_iff_exists.1 h1 with ⟨i, hbv⟩
        rcases Option.isSome_iff_exists.1 h2 with ⟨t, hE⟩
        rw [binEvent_cons, hbv, hE]
        rfl

theorem sum_range_ite (n i0 c : ℕ) (h : i0 < n) :
    ((List.range n).map (fun i => if i = i0 then c else 0)).sum = c := by
  induction n with
  | zero => omega
  | succ n ih =>
    rw [List.range_succ, List.map_append, List.sum_append]
    by_cases hi : i0 = n
    · subst hi
      have hz : ((List.range i0).map (fun i => if i = i0 then c else 0)).sum = 0 := by
        apply List.sum_eq_zero
        intro x hx
        rcases List.mem_map.1 hx with ⟨i, hmem, rfl⟩
        have hlt : i < i0 := List.mem_range.1 hmem
        simp [Nat.ne_of_lt hlt]
      simp [hz]
    · have h2 : i0 < n := by omega
      rw [ih h2]
      have hne : n ≠ i0 := fun hc => hi hc.symm
      simp [hne]

theorem allIndices_cons (a : AxisSpec) (as : List AxisSpec) :
    allIndices (a :: as)
      = ((List.range a.nbins).map (fun i => (allIndices as).map (fun t => i :: t))).flatten := rfl

theorem indicator_sum (axes : List AxisSpec) (r : List ℚ)
    (hb : ∀ a ∈ axes, 0 < a.nbins) (hr : axes.length ≤ r.length) :
    ((allIndices axes).map (fun idx => if binEvent axes r = some idx then 1 else 0)).sum
      = if (binEvent axes r).isSome then 1 else 0 := by
  induction axes generalizing r with
  | nil => simp [allIndices, binEvent]
  | cons a as ih =>
    cases r with
    | nil => simp at hr
    | cons v rt =>
      have hr2 : as.length ≤ rt.length := by simpa using hr
      have hb2 : ∀ x ∈ as, 0 < x.nbins := fun x hx => hb x (List.mem_cons_of_mem a hx)
      rw [allIndices_cons, List.map_flatten, List.sum_flatten]
      cases hbv : binIndex a v with
      | none =>
        have hBE : binEvent (a :: as) (v :: rt) = none := by
          rw [binEvent_cons, hbv]
        rw [hBE]
        have hrhs : (if (none : Option (List ℕ)).isSome = true then (1:ℕ) else 0) = 0 := by simp
        rw [hrhs]
        apply List.sum_eq_zero
        intro x hx
        simp only [List.map_map, List.mem_map] at hx
        rcases hx with ⟨i, hmem, rfl⟩
        simp only [Function.comp_apply, List.map_map]
        apply List.sum_eq_zero
        intro y hy
        rcases List.mem_map.1 hy with ⟨t, ht, rfl⟩
        simp [Function.comp]
      | some i0 =>
        have hi0 : i0 < a.nbins := binIndex_lt a v i0 (hb a (List.mem_cons_self a as)) hbv
        cases hE : binEvent as rt with
        | none =>
          have hBE : binEvent (a :: as) (v :: rt) = none := by
            rw [binEvent_cons, hbv, hE]
          rw [hBE]
          have hrhs : (if (none : Option (List ℕ)).isSome = true then (1:ℕ) else 0) = 0 := by simp
          rw [hrhs]
          apply List.sum_eq_zero
          intro x hx
          simp only [List.map_map, List.mem_map] at hx
          rcases hx with ⟨i, hmem, rfl⟩
          simp only [Function.comp_apply, List.map_map]
          apply List.sum_eq_zero
          intro y hy
          rcases List.mem_map.1 hy with ⟨t, ht, rfl⟩
          simp [Function.comp]
        | some t0 =>
          have hBE : binEvent (a :: as) (v :: rt) = some (i0 :: t0) := by
            rw [binEvent_cons, hbv, hE]
          rw [hBE]
          have hrhs : (if (some (i0 :: t0) : Option (List ℕ)).isSome = true then (1:ℕ) else 0)
              = 1 := by simp
          rw [hrhs]
          have hIH := ih rt hb2 hr2
          rw [hE] at hIH
          simp only [Option.isSome_some, if_true, Option.some.injEq] at hIH
          have hmain : List.map List.sum
              (List.map (List.map (fun idx =>
                  if (some (i0 :: t0) : Option (List ℕ)) = some idx then (1:ℕ) else 0))
                ((List.range a.nbins).map (fun i => (allIndices as).map (fun t => i :: t))))
              = (List.range a.nbins).map (fun i => if i = i0 then 1 else 0) := by
            rw [List.map_map, List.map_map]
            apply List.map_congr_left
            intro i hi
            simp only [Function.comp_apply, List.map_map]
            by_cases hii : i = i0
            · subst hii
              rw [if_pos rfl]
              refine Eq.trans (congrArg List.sum (List.map_congr_left ?_)) hIH
              intro t ht
              simp only [Function.comp_apply, Option.some.injEq, List.cons.injEq, true_and]
            · rw [if_neg hii]
              apply List.sum_eq_zero
              intro y hy
              rcases List.mem_map.1 hy with ⟨t, ht, rfl⟩
              simp only [Function.comp_apply, Option.some.injEq, List.cons.injEq]
              rw [if_neg]
              exact fun hc => hii hc.1.symm
          rw [hmain, sum_range_ite a.nbins i0 1 hi0]

theorem sum_map_add (l : List α) (f g : α → ℕ) :
    (l.map (fun x => f x + g x)).sum = (l.map f).sum + (l.map g).sum := by
  induction l with
  | nil => rfl
  | cons a l ih =>
    simp only [List.map_cons, List.sum_cons, ih]
    omega

theorem histCount_cons (axes : List AxisSpec) (r : List ℚ) (rows : List (List ℚ))
    (idx : List ℕ) :
    histCount axes (r :: rows) idx
      = (if binEvent axes r = some idx then 1 else 0) + histCount axes rows idx := by
  rw [histCount, List.countP_cons, histCount]
  simp only [decide_eq_true_eq]
  omega

theorem sumHist_eq_countP (axes : List AxisSpec) (rows : List (List ℚ))
    (hb : ∀ a ∈ axes, 0 < a.nbins) (hlen : ∀ r ∈ rows, axes.length ≤ r.length) :
    sumHist axes rows = rows.countP (fun r => (binEvent axes r).isSome) := by
  induction rows with
  | nil => simp [sumHist, histCount]
  | cons r rows ih =>
    have step1 : sumHist axes (r :: rows)
        = ((allIndices axes).map
            (fun idx => (if binEvent axes r = some idx then 1 else 0)
              + histCount axes rows idx)).sum := by
      rw [sumHist]
      exact congrArg _ (List.map_congr_left (fun idx _ => histCount_cons axes r rows idx))
    rw [step1, sum_map_add]
    rw [indicator_sum axes r hb (hlen r (by simp))]
    rw [show ((allIndices axes).map (fun idx => histCount axes rows idx)).sum
          = sumHist axes rows from rfl]
    rw [ih (fun x hx => hlen x (by simp [hx]))]
    rw [List.countP_cons]
    omega

/-- C2: for every binning specification with positive bin counts and every
event block whose rows carry one value per binned axis, the sum of all counts
of the localBinning histogram is at most the number N of events, with
equality exactly when every event's value on every binned axis lies inside
that axis's declared range; out-of-range events are excluded (binEvent is
none for them), not clipped and not an error. -/
theorem localBinning_sum_le_length (axes : List AxisSpec) (rows : List (List ℚ))
    (hb : ∀ a ∈ axes, 0 < a.nbins) (hlen : ∀ r ∈ rows, axes.length ≤ r.length) :
    sumHist axes rows ≤ rows.length ∧
      (sumHist axes rows = rows.length ↔
        ∀ r ∈ rows, ∀ p ∈ axes.zip r, p.1.lo ≤ p.2 ∧ p.2 ≤ p.1.hi) := by
  rw [sumHist_eq_countP axes rows hb hlen]
  constructor
  · exact List.countP_le_length _
  · rw [List.countP_eq_length]
    constructor
    · intro h r hr
      exact (binEvent_isSome_iff axes r (hlen r hr)).1 (h r hr)
    · intro h r hr
      exact (binEvent_isSome_iff axes r (hlen r hr)).2 (h r hr)

/-- Witness for localBinning_sum_le_length: one axis with 2 bins over [0, 1],
two events of which one (value 3) is out of range. -/
theorem localBinning_sum_le_length_witness :
    ((∀ a ∈ [AxisSpec.mk 0 1 2], 0 < a.nbins) ∧
      (∀ r ∈ [[(1 : ℚ)/2], [(3 : ℚ)]], ([AxisSpec.mk 0 1 2]).length ≤ r.length)) ∧
    (sumHist [AxisSpec.mk 0 1 2] [[(1 : ℚ)/2], [(3 : ℚ)]] ≤ 2 ∧
      (sumHist [AxisSpec.mk 0 1 2] [[(1 : ℚ)/2], [(3 : ℚ)]] = 2 ↔
        ∀ r ∈ [[(1 : ℚ)/2], [(3 : ℚ)]],
          ∀ p ∈ ([AxisSpec.mk 0 1 2]).zip r, p.1.lo ≤ p.2 ∧ p.2 ≤ p.1.hi)) :=
  ⟨⟨by decide, by decide⟩,
    localBinning_sum_le_length [AxisSpec.mk 0 1 2] [[(1 : ℚ)/2], [(3 : ℚ)]]
      (by decide) (by decide)⟩

theorem drop_take_range (nP a m : ℕ) :
    ((List.range nP).drop a).take m = (List.range (min m (nP - a))).map (fun j => a + j) := by
  apply List.ext_getElem
  · simp [List.length_take, List.length_drop, List.length_range]
  · intro i h1 h2
    rw [List.getElem_take, List.getElem_drop, List.getElem_range, List.getElem_map,
      List.getElem_range]

theorem batch_prefix_sum (g : ℕ → ℕ) (nP nc : ℕ) :
    ∀ K : ℕ, ((List.range K).map (fun k => batchResult g nP nc (k * nc))).sum
      = (((List.range nP).take (K * nc)).map g).sum := by
  intro K
  induction K with
  | zero => simp
  | succ K ih =>
    rw [List.range_succ, List.map_append, List.sum_append, ih, Nat.succ_mul,
      List.take_add, List.map_append, List.sum_append]
    congr 1
    simp only [List.map_cons, List.map_nil, List.sum_cons, List.sum_nil, Nat.add_zero]
    rw [batchResult, drop_take_range, List.map_map]
    rfl

theorem pyRangeStep_sum (g : ℕ → ℕ) (nP nc : ℕ) (hnc : 0 < nc) :
    ((pyRangeStep nP nc).map (batchResult g nP nc)).sum = ((List.range nP).map g).sum := by
  have hK : nP ≤ (nP + nc - 1) / nc * nc := by
    have h4 : nc * ((nP + nc - 1) / nc) + (nP + nc - 1) % nc = nP + nc - 1 :=
      Nat.div_add_mod (nP + nc - 1) nc
    have h5 : (nP + nc - 1) % nc < nc := Nat.mod_lt (nP + nc - 1) hnc
    have h6 : (nP + nc - 1) / nc * nc = nc * ((nP + nc - 1) / nc) := by ring
    omega
  rw [pyRangeStep, List.map_map]
  have h2 : List.map (batchResult g nP nc ∘ fun k => k * nc)
        (List.range ((nP + nc - 1) / nc))
      = List.map (fun k => batchResult g nP nc (k * nc))
          (List.range ((nP + nc - 1) / nc)) := rfl
  rw [h2, batch_prefix_sum g nP nc ((nP + nc - 1) / nc),
    List.take_of_length_le (by simpa using hK)]

theorem chunk_prefix_count (axes : List AxisSpec) (rows : List (List ℚ)) (c : ℕ)
    (idx : List ℕ) :
    ∀ K : ℕ, ((List.range K).map (fun p => binPartition axes (chunkOf rows c p) idx)).sum
      = histCount axes (rows.take (K * c)) idx := by
  intro K
  induction K with
  | zero => simp [histCount]
  | succ K ih =>
    rw [List.range_succ, List.map_append, List.sum_append, ih, Nat.succ_mul,
      List.take_add]
    simp [histCount, binPartition, chunkOf, List.countP_append]

theorem length_le_nPartitions_mul (n c : ℕ) (hc : 0 < c) : n ≤ nPartitions n c * c := by
  rw [nPartitions]
  have h1 : c * (n / c) + n % c = n := Nat.div_add_mod n c
  have h2 : n % c < c := Nat.mod_lt n hc
  have h3 : (n / c + 1) * c = c * (n / c) + c := by ring
  omega

/-- C1: for every event block, binning specification, chunk size and
concurrency degree (both positive), the histogram of the chunked, batchwise
summed binDataframe (the engine of hdf5Processor.distributedBinning) is
elementwise equal to the histogram of the single-pass localBinning, exactly
in this exact-arithmetic model (so equal within floating summation tolerance
in the floating source). -/
theorem binDataframe_eq_localBinning (axes : List AxisSpec) (rows : List (List ℚ))
    (c nc : ℕ) (idx : List ℕ) (hc : 0 < c) (hnc : 0 < nc) :
    binDataframe axes rows c nc idx = localBinning axes rows idx := by
  rw [binDataframe, pyRangeStep_sum _ _ _ hnc,
    chunk_prefix_count axes rows c idx (nPartitions rows.length c),
    List.take_of_length_le (length_le_nPartitions_mul rows.length c hc)]
  rfl

/-- Witness for binDataframe_eq_localBinning: three events on one axis of 2
bins over [0, 1], chunk size 2, concurrency 1. -/
theorem binDataframe_eq_localBinning_witness :
    (0 < 2 ∧ 0 < 1) ∧
    binDataframe [AxisSpec.mk 0 1 2] [[(1 : ℚ)/2], [(3 : ℚ)], [(0 : ℚ)]] 2 1 [0]
      = localBinning [AxisSpec.mk 0 1 2] [[(1 : ℚ)/2], [(3 : ℚ)], [(0 : ℚ)]] [0] :=
  ⟨⟨by decide, by decide⟩,
    binDataframe_eq_localBinning [AxisSpec.mk 0 1 2]
      [[(1 : ℚ)/2], [(3 : ℚ)], [(0 : ℚ)]] 2 1 [0] (by decide) (by decide)⟩

theorem jitterColumn_zero (a : AxisSpec) (noise : ℕ → ℚ) (col : List ℚ) :
    jitterColumn a 0 noise col = col := by
  rw [jitterColumn]
  have h1 : ((List.range col.length).zip col).map
        (fun p => p.2 + 0 * binsize a * noise p.1)
      = ((List.range col.length).zip col).map Prod.snd := by
    apply List.map_congr_left
    intro p hp
    simp
  rw [h1]
  exact List.map_snd_zip _ _ (by simp)

theorem jitterColumns_zero (axes : List AxisSpec) (amps : List ℚ)
    (noises : List (ℕ → ℚ)) (cols : List (List ℚ))
    (hA : amps.length = axes.length) (hN : noises.length = axes.length)
    (hC : cols.length = axes.length) (hz : ∀ x ∈ amps, x = 0) :
    jitterColumns axes amps noises cols = cols := by
  induction axes generalizing amps noises cols with
  | nil =>
    have hc : cols = [] := List.length_eq_zero.1 hC
    subst hc
    simp [jitterColumns]
  | cons a as ih =>
    cases amps with
    | nil => simp at hA
    | cons am amps =>
      cases noises with
      | nil => simp at hN
      | cons ns noises =>
        cases cols with
        | nil => simp at hC
        | cons cl cols =>
          have ham : am = 0 := hz am (by simp)
          subst ham
          simp only [jitterColumns, List.zip_cons_cons, List.map_cons]
          rw [jitterColumn_zero]
          congr 1
          exact ih amps noises cols (by simpa using hA) (by simpa using hN)
            (by simpa using hC) (fun x hx => hz x (by simp [hx]))

theorem jitterColumn_getD (a : AxisSpec) (amp : ℚ) (noise : ℕ → ℚ) (col : List ℚ)
    (j : ℕ) (hj : j < col.length) :
    (jitterColumn a amp noise col).getD j 0
      = col.getD j 0 + amp * binsize a * noise j := by
  rw [jitterColumn, List.getD_eq_getElem?_getD, List.getElem?_map]
  have hlen : j < ((List.range col.length).zip col).length := by
    rw [List.length_zip, List.length_range]
    omega
  rw [List.getElem?_eq_getElem hlen, List.getElem_zip, List.getElem_range]
  simp [List.getD_eq_getElem?_getD, List.getElem?_eq_getElem hj]

/-- C5: localBinning with jittering enabled and every jitter amplitude
exactly zero produces a histogram identical (bit for bit, in this exact
model) to the unjittered localBinning histogram on the stacked columns; and
in general the jitter offset added to event j on an axis is the per-event
noise draw (uniform in [-1, 1] in the source) scaled by the amplitude times
binsize = |max - min| / nbins of that axis. -/
theorem jitter_zero_amplitude_identity (axes : List AxisSpec) (amps : List ℚ)
    (noises : List (ℕ → ℚ)) (cols : List (List ℚ)) (n : ℕ) (idx : List ℕ)
    (hA : amps.length = axes.length) (hN : noises.length = axes.length)
    (hC : cols.length = axes.length) (hz : ∀ x ∈ amps, x = 0) :
    localBinningJittered axes amps noises cols n idx
        = localBinning axes (stackRows cols n) idx ∧
      (∀ (a : AxisSpec) (amp : ℚ) (noise : ℕ → ℚ) (col : List ℚ) (j : ℕ),
        j < col.length →
          (jitterColumn a amp noise col).getD j 0
            = col.getD j 0 + amp * binsize a * noise j) := by
  constructor
  · rw [localBinningJittered, jitterColumns_zero axes amps noises cols hA hN hC hz]
  · intro a amp noise col j hj
    exact jitterColumn_getD a amp noise col j hj

/-- Witness for jitter_zero_amplitude_identity: one axis, one column of two
events, amplitude zero, a nonzero noise function. -/
theorem jitter_zero_amplitude_identity_witness :
    (([(0 : ℚ)].length = [AxisSpec.mk 0 1 1].length) ∧
      ([(fun _ => (1 : ℚ) : ℕ → ℚ)].length = [AxisSpec.mk 0 1 1].length) ∧
      ([[(0 : ℚ), (1 : ℚ)/2]].length = [AxisSpec.mk 0 1 1].length) ∧
      (∀ x ∈ [(0 : ℚ)], x = 0)) ∧
    (localBinningJittered [AxisSpec.mk 0 1 1] [0] [(fun _ => (1 : ℚ) : ℕ → ℚ)] [[(0 : ℚ), (1 : ℚ)/2]] 2 [0]
        = localBinning [AxisSpec.mk 0 1 1] (stackRows [[(0 : ℚ), (1 : ℚ)/2]] 2) [0] ∧
      (∀ (a : AxisSpec) (amp : ℚ) (noise : ℕ → ℚ) (col : List ℚ) (j : ℕ),
        j < col.length →
          (jitterColumn a amp noise col).getD j 0
            = col.getD j 0 + amp * binsize a * noise j)) :=
  ⟨⟨rfl, rfl, rfl, by simp⟩,
    jitter_zero_amplitude_identity [AxisSpec.mk 0 1 1] [0] [(fun _ => (1 : ℚ) : ℕ → ℚ)]
      [[(0 : ℚ), (1 : ℚ)/2]] 2 [0] rfl rfl rfl (by simp)⟩

theorem histEdges_length (a : AxisSpec) : (histEdges a).length = a.nbins + 1 := by
  rw [histEdges, List.length_map, List.length_range]

theorem midpoints_length (a : AxisSpec) : (midpoints (histEdges a)).length = a.nbins := by
  rw [midpoints, List.length_map, List.length_zip, List.length_drop, histEdges_length]
  omega

theorem midpoints_getD (a : AxisSpec) (i : ℕ) (hi : i < a.nbins) :
    (midpoints (histEdges a)).getD i 0
      = ((histEdges a).getD i 0 + (histEdges a).getD (i + 1) 0) / 2 := by
  rw [midpoints, List.getD_eq_getElem?_getD, List.getElem?_map]
  have hlen : i < (((histEdges a).drop 1).zip (histEdges a)).length := by
    rw [List.length_zip, List.length_drop, histEdges_length]
    omega
  rw [List.getElem?_eq_getElem hlen, List.getElem_zip, List.getElem_drop]
  have h2 : i < (histEdges a).length := by rw [histEdges_length]; omega
  have h3 : i + 1 < (histEdges a).length := by rw [histEdges_length]; omega
  simp only [Option.map_some', Option.getD_some]
  rw [List.getD_eq_getElem?_getD, List.getElem?_eq_getElem h2,
    List.getD_eq_getElem?_getD, List.getElem?_eq_getElem h3]
  simp only [Option.getD_some]
  have h4 : (histEdges a)[1 + i] = (histEdges a)[i + 1] := by
    congr 1
    omega
  rw [h4]
  ring

/-- C9 (amended): the localBinning coordinate array for an axis has length
nbins+1 in edge mode and length nbins in midpoint mode, each midpoint being
the average of two consecutive evenly spaced bin edges; the distributed path
(binDataframe) computes its coordinate array analytically from the spec as
np.linspace(min, max, nbins) - same length nbins, but a different array from
the localBinning midpoints in general. -/
theorem histcoord_arrays (a : AxisSpec) :
    (histEdges a).length = a.nbins + 1
  ∧ (midpoints (histEdges a)).length = a.nbins
  ∧ (∀ i, i < a.nbins → (midpoints (histEdges a)).getD i 0
      = ((histEdges a).getD i 0 + (histEdges a).getD (i + 1) 0) / 2)
  ∧ (binDataframeAxis (a.lo, a.hi) a.nbins).length = a.nbins
  ∧ binDataframeAxis (a.lo, a.hi) a.nbins
      = (List.range a.nbins).map (fun (i : ℕ) => a.lo + (i : ℚ) * (a.hi - a.lo) / ((a.nbins : ℚ) - 1)) := by
  refine ⟨histEdges_length a, midpoints_length a, midpoints_getD a, ?_, rfl⟩
  rw [binDataframeAxis, npLinspace, List.length_map, List.length_range]

/-- Witness for histcoord_arrays at the axis with 2 bins over [0, 1]. -/
theorem histcoord_arrays_witness :
    (histEdges (AxisSpec.mk 0 1 2)).length = 2 + 1
  ∧ (midpoints (histEdges (AxisSpec.mk 0 1 2))).length = 2
  ∧ (∀ i, i < 2 → (midpoints (histEdges (AxisSpec.mk 0 1 2))).getD i 0
      = ((histEdges (AxisSpec.mk 0 1 2)).getD i 0
          + (histEdges (AxisSpec.mk 0 1 2)).getD (i + 1) 0) / 2)
  ∧ (binDataframeAxis (0, 1) 2).length = 2
  ∧ binDataframeAxis (0, 1) 2
      = (List.range 2).map (fun (i : ℕ) => 0 + (i : ℚ) * (1 - 0) / ((2 : ℚ) - 1)) :=
  histcoord_arrays (AxisSpec.mk 0 1 2)

/-- C9 counterexample: for 2 bins over the range (0, 1) the distributed
coordinate array np.linspace(0, 1, 2) = [0, 1] differs from the localBinning
midpoint array [1/4, 3/4]. -/
theorem binDataframeAxis_ne_midpoints :
    binDataframeAxis (0, 1) 2 ≠ midpoints (histEdges (AxisSpec.mk 0 1 2)) := by
  intro h
  have h2 := congrArg (fun l => l.getD 1 0) h
  simp [binDataframeAxis, npLinspace, midpoints, histEdges, List.range_succ] at h2
  norm_num at h2

theorem eventList_getD (L n i : ℕ) (hi : i < n + 1) :
    (eventList L n).getD i 0 = i * L / n := by
  rw [eventList, List.getD_eq_getElem?_getD, List.getElem?_map]
  have h1 : i < (List.range (n + 1)).length := by
    rw [List.length_range]; omega
  rw [List.getElem?_eq_getElem h1]
  simp only [Option.map_some', Option.getD_some, List.getElem_range]

theorem flatten_pySlices_div (xs : List ℚ) (L n K : ℕ) :
    ((List.range K).map (fun k => pySlice xs (k * L / n) ((k + 1) * L / n))).flatten
      = xs.take (K * L / n) := by
  induction K with
  | zero => simp
  | succ K ih =>
    rw [List.range_succ, List.map_append, List.flatten_append, ih]
    simp only [List.map_cons, List.map_nil, List.flatten_cons, List.flatten_nil,
      List.append_nil]
    rw [pySlice]
    have hmono : K * L / n ≤ (K + 1) * L / n :=
      Nat.div_le_div_right (Nat.mul_le_mul_right L (by omega))
    have h3 : xs.take ((K + 1) * L / n)
        = xs.take (K * L / n)
          ++ ((xs.drop (K * L / n)).take ((K + 1) * L / n - K * L / n)) := by
      rw [← List.take_add]
      congr 1
      omega
    rw [h3]

/-- C3: hdf5Splitter.split computes n+1 monotonically non-decreasing integer
boundaries with first element 0 and last element L (the reference stream
length), and produces n files whose groups are the original groups sliced to
the consecutive half-open ranges [b_k, b_{k+1}): the slices concatenate back
to the original stream (no gap, no overlap, original order), their lengths
sum to exactly L, and every file attribute and per-group attribute is copied
verbatim. -/
theorem split_partitions_source (f : H5File) (L n : ℕ) (hn : 0 < n)
    (hL : ∀ g ∈ f.groups, g.2.data.length = L) :
    (eventList L n).length = n + 1
  ∧ (eventList L n).getD 0 0 = 0
  ∧ (eventList L n).getD n 0 = L
  ∧ (∀ i j, i ≤ j → j ≤ n → (eventList L n).getD i 0 ≤ (eventList L n).getD j 0)
  ∧ (split f L n).length = n
  ∧ (∀ k, (hk : k < (split f L n).length) →
      (split f L n)[k] = splitFileAt f (k * L / n) ((k + 1) * L / n))
  ∧ (∀ sf ∈ split f L n, sf.attrs = f.attrs)
  ∧ (∀ sf ∈ split f L n, sf.groups.map Prod.fst = f.groups.map Prod.fst)
  ∧ (∀ sf ∈ split f L n, sf.groups.map (fun g => g.2.gattrs)
      = f.groups.map (fun g => g.2.gattrs))
  ∧ (∀ g ∈ f.groups,
      ((List.range n).map (fun k => pySlice g.2.data (k * L / n) ((k + 1) * L / n))).flatten
        = g.2.data)
  ∧ (∀ g ∈ f.groups,
      ((List.range n).map
        (fun k => (pySlice g.2.data (k * L / n) ((k + 1) * L / n)).length)).sum = L) := by
  have hmono : ∀ i j : ℕ, i ≤ j → i * L / n ≤ j * L / n := by
    intro i j hij
    exact Nat.div_le_div_right (Nat.mul_le_mul_right L hij)
  have hlast : n * L / n = L := by
    rw [Nat.mul_comm]
    exact Nat.mul_div_cancel L hn
  have hflat : ∀ g : String × H5Group, g ∈ f.groups →
      ((List.range n).map (fun k => pySlice g.2.data (k * L / n) ((k + 1) * L / n))).flatten
        = g.2.data := by
    intro g hg
    rw [flatten_pySlices_div g.2.data L n n, hlast,
      List.take_of_length_le (by rw [hL g hg])]
  refine ⟨by rw [eventList, List.length_map, List.length_range],
    by rw [eventList_getD L n 0 (by omega)]; simp,
    by rw [eventList_getD L n n (by omega)]; exact hlast,
    ?_, by rw [split, List.length_map, List.length_range], ?_, ?_, ?_, ?_, hflat, ?_⟩
  · intro i j hij hjn
    rw [eventList_getD L n i (by omega), eventList_getD L n j (by omega)]
    exact hmono i j hij
  · intro k hk
    have hkn : k < n := by
      rw [split, List.length_map, List.length_range] at hk
      exact hk
    simp only [split, List.getElem_map, List.getElem_range]
    rw [eventList_getD L n k (by omega), eventList_getD L n (k + 1) (by omega)]
  · intro sf hsf
    rw [split] at hsf
    rcases List.mem_map.1 hsf with ⟨k, hkr, rfl⟩
    rfl
  · intro sf hsf
    rw [split] at hsf
    rcases List.mem_map.1 hsf with ⟨k, hkr, rfl⟩
    rw [splitFileAt, List.map_map]
    apply List.map_congr_left
    intro g hg
    rfl
  · intro sf hsf
    rw [split] at hsf
    rcases List.mem_map.1 hsf with ⟨k, hkr, rfl⟩
    rw [splitFileAt, List.map_map]
    apply List.map_congr_left
    intro g hg
    rfl
  · intro g hg
    have h2 := congrArg List.length (hflat g hg)
    rw [List.length_flatten, List.map_map, hL g hg] at h2
    exact h2

/-- Witness for split_partitions_source: a file with one attribute and one
group of three values, split into two files (boundaries 0, 1, 3). -/
theorem split_partitions_source_witness :
    (0 < 2 ∧
      (∀ g ∈ (H5File.mk [("T", 7)] [("Stream_0", H5Group.mk [5, 6, 7] [("Name", 1)])]).groups,
        g.2.data.length = 3)) ∧
    ((eventList 3 2).length = 2 + 1
      ∧ (eventList 3 2).getD 0 0 = 0
      ∧ (eventList 3 2).getD 2 0 = 3
      ∧ (∀ i j, i ≤ j → j ≤ 2 → (eventList 3 2).getD i 0 ≤ (eventList 3 2).getD j 0)
      ∧ (split (H5File.mk [("T", 7)] [("Stream_0", H5Group.mk [5, 6, 7] [("Name", 1)])]) 3 2).length = 2
      ∧ (∀ k, (hk : k < (split (H5File.mk [("T", 7)] [("Stream_0", H5Group.mk [5, 6, 7] [("Name", 1)])]) 3 2).length) →
          (split (H5File.mk [("T", 7)] [("Stream_0", H5Group.mk [5, 6, 7] [("Name", 1)])]) 3 2)[k]
            = splitFileAt (H5File.mk [("T", 7)] [("Stream_0", H5Group.mk [5, 6, 7] [("Name", 1)])])
                (k * 3 / 2) ((k + 1) * 3 / 2))
      ∧ (∀ sf ∈ split (H5File.mk [("T", 7)] [("Stream_0", H5Group.mk [5, 6, 7] [("Name", 1)])]) 3 2,
          sf.attrs = (H5File.mk [("T", 7)] [("Stream_0", H5Group.mk [5, 6, 7] [("Name", 1)])]).attrs)
      ∧ (∀ sf ∈ split (H5File.mk [("T", 7)] [("Stream_0", H5Group.mk [5, 6, 7] [("Name", 1)])]) 3 2,
          sf.groups.map Prod.fst
            = (H5File.mk [("T", 7)] [("Stream_0", H5Group.mk [5, 6, 7] [("Name", 1)])]).groups.map Prod.fst)
      ∧ (∀ sf ∈ split (H5File.mk [("T", 7)] [("Stream_0", H5Group.mk [5, 6, 7] [("Name", 1)])]) 3 2,
          sf.groups.map (fun g => g.2.gattrs)
            = (H5File.mk [("T", 7)] [("Stream_0", H5Group.mk [5, 6, 7] [("Name", 1)])]).groups.map
                (fun g => g.2.gattrs))
      ∧ (∀ g ∈ (H5File.mk [("T", 7)] [("Stream_0", H5Group.mk [5, 6, 7] [("Name", 1)])]).groups,
          ((List.range 2).map (fun k => pySlice g.2.data (k * 3 / 2) ((k + 1) * 3 / 2))).flatten
            = g.2.data)
      ∧ (∀ g ∈ (H5File.mk [("T", 7)] [("Stream_0", H5Group.mk [5, 6, 7] [("Name", 1)])]).groups,
          ((List.range 2).map
            (fun k => (pySlice g.2.data (k * 3 / 2) ((k + 1) * 3 / 2)).length)).sum = 3)) :=
  ⟨⟨by decide, by decide⟩,
    split_partitions_source
      (H5File.mk [("T", 7)] [("Stream_0", H5Group.mk [5, 6, 7] [("Name", 1)])])
      3 2 (by decide) (by decide)⟩

/-- C4 counterexample: _addBinners accepts nbins=[3] with the two axes
['x','y'] (and any ranges) without any error, while the claim says this
configuration is rejected before touching any source. -/
theorem addBinners_accepts_mismatched_nbins :
    (addBinners ["x", "y"] (NbinsArg.listArg [3]) [(0, 3), (0, 5)]).isOk = true := rfl

/-- C4 (amended): _addBinners performs no validation at all - it stores the
axes, bin counts and ranges verbatim and always succeeds, for mismatched
lengths, degenerate ranges and non-positive bin counts alike; moreover
localBinning reads the source data (summarize, line 879) strictly before
_addBinners runs (line 882), so no mismatch is surfaced before data is
read - the mismatch only errors later inside np.histogramdd. -/
theorem addBinners_no_validation :
    (∀ (axes : List String) (nbins : NbinsArg) (ranges : List (ℚ × ℚ)),
      addBinners axes nbins ranges
        = .ok { binaxes := axes, nbinaxes := axes.length,
                bincounts := nbins, binranges := ranges })
  ∧ localBinningSeq.findIdx (fun e => decide (e = PyEvent.readData))
      < localBinningSeq.findIdx (fun e => decide (e = PyEvent.addBinnersEv)) :=
  ⟨fun _ _ _ => rfl, by decide⟩

/-- C6 (amended): updateHistogram on one axis slices the stored coordinate
array of that axis to [r0, r1) and slices the binned array along that axis's
position in binaxes (shape narrowed to min(r1, len) - r0, indices shifted by
r0), leaving every other axis's coordinate array and histogram extent
unchanged; but it applies the update by overwriting the processor's stored
histdict (the very dictionary the binning call returned), and with the
default ret=False it returns nothing at all - the narrowing is communicated
only through that in-place overwrite. -/
theorem updateHistogram_slices_axis (binaxes : List String) (h : Hist) (ax : String)
    (r0 r1 : ℕ) (idx : List ℕ) :
    (updateHistogram binaxes h [ax] [(r0, r1)]).axesVals
        = h.axesVals.map (fun p => if p.1 = ax then (p.1, pySlice p.2 r0 r1) else p)
  ∧ (∀ p ∈ h.axesVals, p.1 ≠ ax →
      p ∈ (updateHistogram binaxes h [ax] [(r0, r1)]).axesVals)
  ∧ (updateHistogram binaxes h [ax] [(r0, r1)]).binned.entry idx
      = h.binned.entry (idx.set (binaxes.indexOf ax)
          (idx.getD (binaxes.indexOf ax) 0 + r0))
  ∧ (updateHistogram binaxes h [ax] [(r0, r1)]).binned.shape[binaxes.indexOf ax]?
      = h.binned.shape[binaxes.indexOf ax]?.map (fun m => min r1 m - r0)
  ∧ (∀ k, k ≠ binaxes.indexOf ax →
      (updateHistogram binaxes h [ax] [(r0, r1)]).binned.shape[k]?
        = h.binned.shape[k]?)
  ∧ (updateHistogramCall (ProcState.mk binaxes h) [ax] [(r0, r1)] false).1.histdict
      = updateHistogram binaxes h [ax] [(r0, r1)]
  ∧ (updateHistogramCall (ProcState.mk binaxes h) [ax] [(r0, r1)] false).2 = none := by
  refine ⟨rfl, ?_, rfl, ?_, ?_, rfl, rfl⟩
  · intro p hp hne
    refine List.mem_map.2 ⟨p, hp, ?_⟩
    rw [if_neg hne]
  · by_cases hlen : binaxes.indexOf ax < h.binned.shape.length
    · rw [show (updateHistogram binaxes h [ax] [(r0, r1)]).binned.shape
          = h.binned.shape.set (binaxes.indexOf ax)
              (min r1 (h.binned.shape.getD (binaxes.indexOf ax) 0) - r0) from rfl]
      rw [List.getElem?_set_self hlen, List.getElem?_eq_getElem hlen]
      rw [List.getD_eq_getElem?_getD, List.getElem?_eq_getElem hlen]
      rfl
    · rw [show (updateHistogram binaxes h [ax] [(r0, r1)]).binned.shape
          = h.binned.shape.set (binaxes.indexOf ax)
              (min r1 (h.binned.shape.getD (binaxes.indexOf ax) 0) - r0) from rfl]
      rw [List.getElem?_eq_none (by rw [List.length_set]; omega),
        List.getElem?_eq_none (by omega)]
      rfl
  · intro k hk
    rw [show (updateHistogram binaxes h [ax] [(r0, r1)]).binned.shape
        = h.binned.shape.set (binaxes.indexOf ax)
            (min r1 (h.binned.shape.getD (binaxes.indexOf ax) 0) - r0) from rfl]
    exact List.getElem?_set_ne (fun hc => hk hc.symm)

/-- C6 counterexample: on a processor holding a 1-axis histogram with
coordinate array [10, 20], calling updateHistogram with slice range (1, 2)
and the default ret=False returns nothing (None), yet the stored histdict
changes - the previously returned dictionary is mutated in place instead of
a new HistogramResult being derived and handed back. -/
theorem updateHistogram_overwrites_stored_result :
    (updateHistogramCall
        (ProcState.mk ["x"] (Hist.mk (NDArray.mk [2] (fun _ => 0)) [("x", [10, 20])]))
        ["x"] [(1, 2)] false).2 = none
  ∧ (updateHistogramCall
        (ProcState.mk ["x"] (Hist.mk (NDArray.mk [2] (fun _ => 0)) [("x", [10, 20])]))
        ["x"] [(1, 2)] false).1.histdict.axesVals
      ≠ (Hist.mk (NDArray.mk [2] (fun (_ : List ℕ) => (0 : ℚ))) [("x", [10, 20])]).axesVals := by
  constructor
  · rfl
  · intro hcontra
    have h3 := congrArg (fun l => l.map (fun p => p.2.length)) hcontra
    simp [updateHistogramCall, updateHistogram, updateHistogram1, pySlice] at h3

/-- C7 (code defect): combineResults on two per-file results of mismatched
bin shapes [2] and [3] raises nothing - np.stack's ValueError is swallowed
by the bare except and the call silently returns the empty combinedresult -
whereas whenever the stack-and-sum succeeds the combined array is exactly
the elementwise sum of the inputs, which all share the first result's
shape. -/
theorem combineResults_swallows_mismatch :
    (combineResults (ParallelState.mk
        [Hist.mk (NDArray.mk [2] (fun _ => 1)) [("x", [0])],
          Hist.mk (NDArray.mk [3] (fun _ => 1)) [("x", [0])]] none)).2 = none
  ∧ (combineResults (ParallelState.mk
        [Hist.mk (NDArray.mk [2] (fun _ => 1)) [("x", [0])],
          Hist.mk (NDArray.mk [3] (fun _ => 1)) [("x", [0])]] none)).1.combinedresult = none
  ∧ (∀ (arrs : List NDArray) (A : NDArray), npStackSum arrs = some A →
      (∀ idx, A.entry idx = (arrs.map (fun b => b.entry idx)).sum)
        ∧ ∃ a0 rest, arrs = a0 :: rest ∧ A.shape = a0.shape) := by
  refine ⟨rfl, rfl, ?_⟩
  intro arrs A hA
  cases arrs with
  | nil => simp [npStackSum] at hA
  | cons a0 rest =>
    rw [npStackSum] at hA
    split at hA
    · rw [Option.some.injEq] at hA
      subst hA
      exact ⟨fun idx => rfl, a0, rest, rfl, rfl⟩
    · exact absurd hA (by simp)

/-- C8: the hdf5 branch of saveDict writes, for fewer than 4 binning axes,
exactly one dataset binned/<sliceName> holding the whole array followed by
one axes/<name> coordinate dataset per axis; for exactly 4 axes, one 3-D
dataset binned/<sliceName><i> per index i along the cut axis, followed by
the axes datasets; and for more than 4 axes it fails with an error and
writes no dataset at all rather than truncating. -/
theorem saveDictH5_layout (nbinaxes : ℕ) (A : NDArray) (binaxes : List String)
    (axesVals : String → List ℚ) (sln : String) (cutaxis : ℕ) :
    (nbinaxes ≤ 3 →
      saveDictH5 nbinaxes A binaxes axesVals sln cutaxis
        = .ok (("binned/" ++ sln, .arr A) ::
            binaxes.map (fun k => ("axes/" ++ k, .coords (axesVals k)))))
  ∧ (nbinaxes = 4 →
      saveDictH5 nbinaxes A binaxes axesVals sln cutaxis
        = .ok ((List.range (A.shape.getD cutaxis 0)).map
              (fun i => ("binned/" ++ sln ++ toString i, .arr (cutSlice A cutaxis i)))
            ++ binaxes.map (fun k => ("axes/" ++ k, .coords (axesVals k)))))
  ∧ (4 < nbinaxes →
      (saveDictH5 nbinaxes A binaxes axesVals sln cutaxis).isOk = false) := by
  refine ⟨?_, ?_, ?_⟩
  · intro h3
    rw [saveDictH5, if_pos (by omega)]
  · intro h4
    rw [saveDictH5, if_neg (by omega), if_pos h4]
  · intro h5
    rw [saveDictH5, if_neg (by omega), if_neg (by omega)]
    rfl

/-- Witness for saveDictH5_layout: a 2-axis histogram saved through the
whole-array branch. -/
theorem saveDictH5_layout_witness :
    (2 : ℕ) ≤ 3 ∧
    saveDictH5 2 (NDArray.mk [2, 2] (fun _ => 0)) ["x", "y"]
        (fun _ => [0]) "V" 3
      = .ok (("binned/" ++ "V", .arr (NDArray.mk [2, 2] (fun _ => 0))) ::
          (["x", "y"]).map (fun k =>
            ("axes/" ++ k, .coords ((fun _ => ([0] : List ℚ)) k)))) :=
  ⟨by decide,
    (saveDictH5_layout 2 (NDArray.mk [2, 2] (fun _ => 0)) ["x", "y"]
      (fun _ => [0]) "V" 3).1 (by decide)⟩

/-- C10 counterexample: parallelBinning with combine=True raises its
attribute-lookup error at the u.dictmerge call, which executes before any
binning work - not after binning as the claim states: the aborted trace
contains no binning event. -/
theorem parallelBinning_error_before_binning :
    (runSeq parallelBinningCombineSeq).2 = some "dictmerge"
  ∧ PyEvent.bin ∉ (runSeq parallelBinningCombineSeq).1 := by decide

/-- C10 (amended): the utils module defines none of intify, dictmerge and
calcax, so localBinning and distributedBinning abort at their u.intify call
and parallelBinning with combine=True aborts at its u.dictmerge call; in
every case the AttributeError is raised before any result is returned, and
in every case (the combine case included) before any binning - indeed for
localBinning and parallelBinning before any source data is read. -/
theorem missing_utils_abort_before_result :
    ("intify" ∉ utilsDefinedNames ∧ "dictmerge" ∉ utilsDefinedNames ∧
      "calcax" ∉ utilsDefinedNames)
  ∧ ((runSeq localBinningSeq).2 = some "intify"
      ∧ PyEvent.ret ∉ (runSeq localBinningSeq).1
      ∧ PyEvent.bin ∉ (runSeq localBinningSeq).1
      ∧ PyEvent.readData ∉ (runSeq localBinningSeq).1)
  ∧ ((runSeq distributedBinningSeq).2 = some "intify"
      ∧ PyEvent.ret ∉ (runSeq distributedBinningSeq).1
      ∧ PyEvent.bin ∉ (runSeq distributedBinningSeq).1)
  ∧ ((runSeq parallelBinningCombineSeq).2 = some "dictmerge"
      ∧ PyEvent.ret ∉ (runSeq parallelBinningCombineSeq).1
      ∧ PyEvent.bin ∉ (runSeq parallelBinningCombineSeq).1
      ∧ PyEvent.readData ∉ (runSeq parallelBinningCombineSeq).1) := by decide

end Mpes
